import Mathlib

/-!
Verification development for the `llvm-option-parser` crate of the
portable-clang repository.

The crate root `src/llvm-option-parser/src/lib.rs` (the schema registry, its
embedded tablegen metadata table, and the crate tests) is embedded below
directly from that source.  The option data model, loader, argument matcher
and alias resolver live in the crate module `llvm.rs`, which is not part of
the available sources; those definitions are modelled from the specification
(sections 3, 4.1, 4.2, 4.3 and 6 of the design document) and are marked
`Modelled from the spec:` in their doc comments.  Machine strings are
modelled as Lean `String` values and all string operations are defined over
`String.data` (lists of characters) so that every definition evaluates by
kernel reduction.
-/

/-- Length of a string in characters, via the underlying character list. -/
def strLen (s : String) : Nat :=
  s.data.length

/-- Boolean prefix test on strings, via the underlying character lists. -/
def strIsPrefixOf (p s : String) : Bool :=
  p.data.isPrefixOf s.data

/-- Drop the first `n` characters of a string. -/
def strDropLen (s : String) (n : Nat) : String :=
  ⟨s.data.drop n⟩

/-- Split a character list on commas; the final chunk accumulator is passed
along, mirroring a left-to-right scan. -/
def splitCommasGo (acc : List Char) : List Char → List (List Char)
  | [] => [acc.reverse]
  | c :: cs =>
    if c = ',' then acc.reverse :: splitCommasGo [] cs
    else splitCommasGo (c :: acc) cs

/-- Split a string on commas into the list of chunks, as the comma-joined
value splitter does. -/
def splitCommas (s : String) : List String :=
  (splitCommasGo [] s.data).map String.mk

/-- Modelled from the spec: the closed set of option kinds of the metadata
data model (spec section 3, `OptionKind`).  `llvm.rs`, which declares the
concrete Rust enum, is not in the available sources.  The spec lists `Alias`
as a kind; its own scenarios additionally require alias records (such as
`target_legacy_spelling`) to match with `Separate` semantics, so alias
information is carried on the option record (`alias_target` field) and the
`aliasKind` tag is kept only for documents that use the literal `Alias`
kind tag; such records are never match targets, like `group`. -/
inductive OptionKind where
  | flag
  | joined
  | separate
  | joinedOrSeparate
  | commaJoined
  | multiArg (n : Nat)
  | group
  | aliasKind
deriving DecidableEq, Repr

/-- Modelled from the spec: one option record of a loaded Schema (spec
section 3, `OptionRecord`); `llvm.rs` (the concrete Rust struct) is not in
the available sources. -/
structure OptionRecord where
  name : String
  kind : OptionKind
  prefixes : List String
  spelling : String
  group : Option String
  alias_target : Option String
  alias_fixed_values : Option (List String)
deriving DecidableEq, Repr

/-- Modelled from the spec: the parse result element (spec section 3,
`ParsedArgument`); `llvm.rs` is not in the available sources. -/
inductive ParsedArgument where
  | positional (text : String)
  | flag (name : String)
  | singleValue (name : String) (value : String)
  | multiValue (name : String) (values : List String)
deriving DecidableEq, Repr

/-- Accessor `name()`: the matched option name of a non-positional parsed
argument, none for a positional (spec section 4.2). -/
def ParsedArgument.name : ParsedArgument → Option String
  | .positional _ => none
  | .flag n => some n
  | .singleValue n _ => some n
  | .multiValue n _ => some n

/-- Accessor `values()`: empty for flags and positionals, a singleton for a
single value, the full sequence for a multi value (spec section 4.2). -/
def ParsedArgument.values : ParsedArgument → List String
  | .positional _ => []
  | .flag _ => []
  | .singleValue _ v => [v]
  | .multiValue _ vs => vs

/-- The error enum of `src/llvm-option-parser/src/lib.rs` (lines 81-100). -/
inductive PError where
  | unrecognizedArgumentPrefix (t : String)
  | json (msg : String)
  | jsonParse (msg : String)
  | parseNoArgumentValue (name : String)
  | parseMultipleValuesMissing (name : String) (expected got : Nat)
  | aliasMissing (a b : String)
deriving DecidableEq, Repr

/-- Modelled from the spec: one record of the metadata document consumed by
the loader (spec section 6); the concrete serde types of `llvm.rs` are not
in the available sources.  `kind` is the stringly-typed kind tag, validated
by the loader. -/
structure DocOption where
  name : String
  kind : String
  prefixes : List String
  spelling : String
  num_args : Option Nat
  group : Option String
  alias_target : Option String
  alias_fixed_values : Option (List String)
deriving DecidableEq, Repr

/-- Modelled from the spec: a structured metadata document, an ordered list
of option records (spec section 6). -/
structure OptionDocument where
  options : List DocOption
deriving DecidableEq, Repr

/-- Modelled from the spec: the loaded Schema type; the crate calls it
`CommandOptions` (its `options` field is used by the crate tests in
`lib.rs`, e.g. `options.options[0].option_name`). -/
structure CommandOptions where
  options : List OptionRecord
deriving DecidableEq, Repr

/-- Modelled from the spec: the parse result; the crate calls it a struct
with a `parsed` field (used as `args.parsed` by the tests in `lib.rs`). -/
structure ParsedArguments where
  parsed : List ParsedArgument
deriving DecidableEq, Repr

/-- Except-valued map over a list, failing on the first error, preserving
order on success.  Used by the loader and the alias resolver. -/
def mapE {α β : Type} (f : α → Except PError β) : List α → Except PError (List β)
  | [] => .ok []
  | x :: xs =>
    match f x with
    | .error e => .error e
    | .ok y =>
      match mapE f xs with
      | .error e => .error e
      | .ok ys => .ok (y :: ys)

/-- Modelled from the spec: validate the stringly-typed kind tag of one
document record into the closed `OptionKind` set (spec sections 4.1 and 6):
an unrecognized tag is a hard `JsonParse`-class error; `MultiArg` without a
positive argument count is a hard error; an `Alias` tag without a declared
target is missing a kind-required field. -/
def kindOf (o : DocOption) : Except PError OptionKind :=
  if o.kind = "Flag" then .ok .flag
  else if o.kind = "Joined" then .ok .joined
  else if o.kind = "Separate" then .ok .separate
  else if o.kind = "JoinedOrSeparate" then .ok .joinedOrSeparate
  else if o.kind = "CommaJoined" then .ok .commaJoined
  else if o.kind = "MultiArg" then
    match o.num_args with
    | some n => if 0 < n then .ok (.multiArg n) else .error (.jsonParse o.name)
    | none => .error (.jsonParse o.name)
  else if o.kind = "Group" then .ok .group
  else if o.kind = "Alias" then
    match o.alias_target with
    | some _ => .ok .aliasKind
    | none => .error (.jsonParse o.name)
  else .error (.jsonParse o.kind)

/-- Modelled from the spec: load one document record into an option record,
carrying all fields through unchanged (spec section 4.1). -/
def parseDocOption (o : DocOption) : Except PError OptionRecord :=
  match kindOf o with
  | .error e => .error e
  | .ok k =>
    .ok ⟨o.name, k, o.prefixes, o.spelling, o.group, o.alias_target, o.alias_fixed_values⟩

/-- Modelled from the spec: the loader `from_metadata(document)`, called
`CommandOptions::from_json` by the crate (spec section 4.1); pure; preserves
declaration order. -/
def CommandOptions.from_json (d : OptionDocument) : Except PError CommandOptions :=
  match mapE parseDocOption d.options with
  | .error e => .error e
  | .ok os => .ok ⟨os⟩

/-- First-occurrence deduplication worker over strings. -/
def firstDedupGo (seen : List String) : List String → List String
  | [] => []
  | x :: xs =>
    if seen.contains x then firstDedupGo seen xs
    else x :: firstDedupGo (x :: seen) xs

/-- Deduplicate a list of strings keeping first occurrences in order. -/
def firstDedup (l : List String) : List String :=
  firstDedupGo [] l

/-- Modelled from the spec: `options_by_group()` — a mapping from group name
to the ordered list of option names declaring that group; ungrouped options
are excluded (spec section 4.1). -/
def CommandOptions.options_by_group (c : CommandOptions) : List (String × List String) :=
  (firstDedup (c.options.filterMap OptionRecord.group)).map
    (fun g => (g, (c.options.filter (fun o => o.group = some g)).map OptionRecord.name))

/-- Modelled from the spec: `options_by_flag()` — a mapping keyed by the
cross-product of each option's prefixes and spelling, to the option's name
(spec section 4.1). -/
def CommandOptions.options_by_flag (c : CommandOptions) : List (String × String) :=
  c.options.foldr
    (fun o acc => (o.prefixes.map (fun p => (p ++ o.spelling, o.name))) ++ acc) []

/-- Modelled from the spec: all prefixes registered by any option of the
schema (spec section 4.2 step 2 speaks of a prefix registered in the
Schema). -/
def allPrefixStrings (opts : List OptionRecord) : List String :=
  opts.foldr (fun o acc => o.prefixes ++ acc) []

/-- Pick the longest element of `ps` that is a character-level prefix of
`t`; earlier elements win ties. -/
def longestLeadIn (t : String) : List String → Option String
  | [] => none
  | p :: rest =>
    let rb := longestLeadIn t rest
    if strIsPrefixOf p t then
      match rb with
      | none => some p
      | some b => if strLen b ≤ strLen p then some p else some b
    else rb

/-- Modelled from the spec: strip the longest registered prefix from a token
(spec section 4.2 steps 2 and 3), yielding the stripped prefix and the
remainder, or none when the token begins with no registered prefix. -/
def stripToken (opts : List OptionRecord) (t : String) : Option (String × String) :=
  match longestLeadIn t (allPrefixStrings opts) with
  | none => none
  | some p => some (p, strDropLen t (strLen p))

/-- Kind test: the Joined family (Joined, JoinedOrSeparate, CommaJoined). -/
def isJoinedKind : OptionKind → Bool
  | .joined => true
  | .joinedOrSeparate => true
  | .commaJoined => true
  | _ => false

/-- Kind test: the kinds matching only on exact spelling equality
(Separate and MultiArg). -/
def isSepKind : OptionKind → Bool
  | .separate => true
  | .multiArg _ => true
  | _ => false

/-- Candidate test for an exact Flag match of the prefix-stripped remainder
(spec section 4.2 step 3a). -/
def flagCand (pfx rem : String) (o : OptionRecord) : Bool :=
  o.kind == .flag && o.prefixes.contains pfx && o.spelling == rem

/-- Candidate test for a Joined-family match: the option's spelling is a
literal prefix of the remainder (spec section 4.2 step 3b). -/
def joinedCand (pfx rem : String) (o : OptionRecord) : Bool :=
  isJoinedKind o.kind && o.prefixes.contains pfx && strIsPrefixOf o.spelling rem

/-- Candidate test for a Separate/MultiArg match: exact spelling equality
(spec section 4.2 step 3c). -/
def sepCand (pfx rem : String) (o : OptionRecord) : Bool :=
  isSepKind o.kind && o.prefixes.contains pfx && o.spelling == rem

/-- Modelled from the spec: the exact-Flag matching rule of step 3a —
the first (declaration-order) Flag whose spelling equals the remainder. -/
def findFlagMatch (opts : List OptionRecord) (pfx rem : String) : Option OptionRecord :=
  opts.find? (flagCand pfx rem)

/-- Modelled from the spec: the Joined-family matching rule of step 3b —
among candidates whose spelling is a literal prefix of the remainder, the
one with the longest spelling; ties broken by declaration order, earliest
wins. -/
def bestJoined (pfx rem : String) : List OptionRecord → Option OptionRecord
  | [] => none
  | o :: rest =>
    match bestJoined pfx rem rest with
    | none => if joinedCand pfx rem o then some o else none
    | some b =>
      if joinedCand pfx rem o then
        if strLen b.spelling ≤ strLen o.spelling then some o else some b
      else some b

/-- Modelled from the spec: the Separate/MultiArg matching rule of step 3c —
the first (declaration-order) such option with exact spelling equality. -/
def findSeparateMatch (opts : List OptionRecord) (pfx rem : String) : Option OptionRecord :=
  opts.find? (sepCand pfx rem)

/-- Modelled from the spec: the matching precedence of step 3 — an exact
Flag match wins outright, then the longest Joined-family literal-prefix
match, then a Separate/MultiArg exact match. -/
def matchOption (opts : List OptionRecord) (pfx rem : String) : Option OptionRecord :=
  match findFlagMatch opts pfx rem with
  | some o => some o
  | none =>
    match bestJoined pfx rem opts with
    | some o => some o
    | none => findSeparateMatch opts pfx rem

/-- Modelled from the spec: the single-pass matcher loop of section 4.2
(steps 1-6); `llvm.rs` is not in the available sources.  The first `Nat`
argument is structural-recursion fuel; one unit is spent per consumed
leading token, so fuel equal to the token count always suffices and the
fuel-exhaustion branch is unreachable from `CommandOptions.parse_arguments`. -/
def parseArgsGo (opts : List OptionRecord) : Nat → List String → Except PError (List ParsedArgument)
  | _, [] => .ok []
  | 0, _ :: _ => .error (.jsonParse "internal: token fuel exhausted")
  | fuel + 1, t :: rest =>
    match stripToken opts t with
    | none => (parseArgsGo opts fuel rest).map (fun as => .positional t :: as)
    | some (pfx, rem) =>
      match matchOption opts pfx rem with
      | none => .error (.unrecognizedArgumentPrefix t)
      | some o =>
        match o.kind with
        | .flag => (parseArgsGo opts fuel rest).map (fun as => .flag o.name :: as)
        | .joined =>
          (parseArgsGo opts fuel rest).map
            (fun as => .singleValue o.name (strDropLen rem (strLen o.spelling)) :: as)
        | .commaJoined =>
          (parseArgsGo opts fuel rest).map
            (fun as => .multiValue o.name (splitCommas (strDropLen rem (strLen o.spelling))) :: as)
        | .joinedOrSeparate =>
          if strLen o.spelling < strLen rem then
            (parseArgsGo opts fuel rest).map
              (fun as => .singleValue o.name (strDropLen rem (strLen o.spelling)) :: as)
          else
            match rest with
            | [] => .error (.parseNoArgumentValue o.name)
            | v :: rest2 => (parseArgsGo opts fuel rest2).map (fun as => .singleValue o.name v :: as)
        | .separate =>
          match rest with
          | [] => .error (.parseNoArgumentValue o.name)
          | v :: rest2 => (parseArgsGo opts fuel rest2).map (fun as => .singleValue o.name v :: as)
        | .multiArg n =>
          if rest.length < n then .error (.parseMultipleValuesMissing o.name n rest.length)
          else
            (parseArgsGo opts fuel (rest.drop n)).map
              (fun as => .multiValue o.name (rest.take n) :: as)
        | .group => .error (.unrecognizedArgumentPrefix t)
        | .aliasKind => .error (.unrecognizedArgumentPrefix t)

/-- Modelled from the spec: the Argument Matcher contract
`parse(tokens) -> Result<ParseResult, Error>` of section 4.2, called
`parse_arguments` by the crate tests in `lib.rs`. -/
def CommandOptions.parse_arguments (c : CommandOptions) (args : List String) :
    Except PError ParsedArguments :=
  (parseArgsGo c.options args.length args).map (fun as => ⟨as⟩)

/-- Look up an option record by its unique name. -/
def findOption (opts : List OptionRecord) (n : String) : Option OptionRecord :=
  opts.find? (fun o => o.name == n)

/-- Does the name refer to an Alias record of the schema (a record carrying
an alias target)? -/
def isAliasName (opts : List OptionRecord) (n : String) : Bool :=
  match findOption opts n with
  | none => false
  | some o => o.alias_target.isSome

/-- Does the parsed argument's option name refer to an Alias record? -/
def isAliasRef (opts : List OptionRecord) (a : ParsedArgument) : Bool :=
  match a.name with
  | none => false
  | some n => isAliasName opts n

/-- Modelled from the spec: walk a chain of alias records until a non-alias
record is reached; a missing target or a cycle (detected by the fuel bound)
raises `AliasMissing` (spec section 4.3). -/
def chaseAlias (opts : List OptionRecord) : Nat → OptionRecord → Except PError OptionRecord
  | 0, o => .error (.aliasMissing o.name (o.alias_target.getD ""))
  | fuel + 1, o =>
    match o.alias_target with
    | none => .ok o
    | some tgt =>
      match findOption opts tgt with
      | none => .error (.aliasMissing o.name tgt)
      | some o2 => chaseAlias opts fuel o2

/-- Modelled from the spec: resolve one option name against the schema.
Returns `none` when the argument passes through unchanged (the name refers
to a non-alias record, or to no record), otherwise the chained target's name
together with the matched alias record's fixed values (spec section 4.3). -/
def resolveArgName (opts : List OptionRecord) (n : String) :
    Except PError (Option (String × Option (List String))) :=
  match findOption opts n with
  | none => .ok none
  | some o =>
    match o.alias_target with
    | none => .ok none
    | some _ =>
      match chaseAlias opts (opts.length + 1) o with
      | .error e => .error e
      | .ok tgt => .ok (some (tgt.name, o.alias_fixed_values))

/-- Modelled from the spec: rewrite one parsed argument (spec section 4.3):
positionals and non-alias names pass through unchanged; an alias reference
is rewritten to the target's name; declared fixed values replace the carried
values, surfacing as SingleValue/MultiValue per their shape. -/
def resolveArg (opts : List OptionRecord) : ParsedArgument → Except PError ParsedArgument
  | .positional t => .ok (.positional t)
  | .flag n =>
    (resolveArgName opts n).map (fun r =>
      match r with
      | none => .flag n
      | some (tn, none) => .flag tn
      | some (tn, some [v]) => .singleValue tn v
      | some (tn, some vs) => .multiValue tn vs)
  | .singleValue n v =>
    (resolveArgName opts n).map (fun r =>
      match r with
      | none => .singleValue n v
      | some (tn, none) => .singleValue tn v
      | some (tn, some [w]) => .singleValue tn w
      | some (tn, some ws) => .multiValue tn ws)
  | .multiValue n vs =>
    (resolveArgName opts n).map (fun r =>
      match r with
      | none => .multiValue n vs
      | some (tn, none) => .multiValue tn vs
      | some (tn, some [w]) => .singleValue tn w
      | some (tn, some ws) => .multiValue tn ws)

/-- Modelled from the spec: the Alias Resolver contract
`resolve_aliases(result, schema) -> Result<ParseResult, Error>` of section
4.3, called as `args.resolve_aliases(&options)` by the crate tests; a pure,
order-preserving transformation. -/
def ParsedArguments.resolve_aliases (r : ParsedArguments) (c : CommandOptions) :
    Except PError ParsedArguments :=
  match mapE (resolveArg c.options) r.parsed with
  | .error e => .error e
  | .ok as => .ok ⟨as⟩

/-- Modelled from the spec: a well-formed document for an embedded LLVM 13
command whose tablegen JSON payload is not in the available sources (only
`lib.rs` ships the bytes via `include_bytes`); spec section 8 records only
that every such document loads without error, so it is modelled as the
minimal well-formed document. -/
def unknownDoc : OptionDocument :=
  ⟨[]⟩

/-- Modelled from the spec: the fragment of the embedded clang 13 tablegen
document exercised by the spec's scenarios (spec section 8) and the crate
tests in `lib.rs`; `tablegen/llvm-13/clang.json` itself is not in the
available sources.  Field order: name, kind tag, prefixes, spelling,
num args, group, alias target, alias fixed values.  Declaration order
follows the embedded document's sorted-by-name order, with first option
`C`, second `CC` and last `y` as the crate test `clang_13` asserts. -/
def clangDoc : OptionDocument :=
  ⟨[⟨"C", "Flag", ["-"], "C", none, none, none, none⟩,
    ⟨"CC", "Flag", ["-"], "CC", none, none, none, none⟩,
    ⟨"D", "JoinedOrSeparate", ["-"], "D", none, none, none, none⟩,
    ⟨"W_Joined", "Joined", ["-"], "W", none, none, none, none⟩,
    ⟨"fvisibility_EQ", "Joined", ["-"], "fvisibility=", none, none, none, none⟩,
    ⟨"pthread", "Flag", ["-"], "pthread", none, none, none, none⟩,
    ⟨"target", "Joined", ["--"], "target=", none, none, none, none⟩,
    ⟨"target_legacy_spelling", "Separate", ["-"], "target", none, none, some "target", none⟩,
    ⟨"y", "Joined", ["-"], "y", none, none, none, none⟩]⟩

/-- The pair list passed to `BTreeMap::from_iter` by the `LLVM_13_JSON`
static of `lib.rs` (lines 55-79), in source order; note `llvm-cxxfilt`
appears twice (lines 66 and 72), with the same payload. -/
def LLVM_13_JSON_entries : List (String × OptionDocument) :=
  [("clang", clangDoc),
   ("dsymutil", unknownDoc),
   ("lld-coff", unknownDoc),
   ("lld-darwin-ld", unknownDoc),
   ("lld-elf", unknownDoc),
   ("lld-macho", unknownDoc),
   ("lld-mingw", unknownDoc),
   ("lld-wasm", unknownDoc),
   ("llvm-cvtres", unknownDoc),
   ("llvm-cxxfilt", unknownDoc),
   ("llvm-dlltool", unknownDoc),
   ("llvm-lib", unknownDoc),
   ("llvm-ml", unknownDoc),
   ("llvm-mt", unknownDoc),
   ("llvm-nm", unknownDoc),
   ("llvm-cxxfilt", unknownDoc),
   ("llvm-rc", unknownDoc),
   ("llvm-readobj", unknownDoc),
   ("llvm-size", unknownDoc),
   ("llvm-strings", unknownDoc),
   ("llvm-symbolizer", unknownDoc)]

/-- Map insertion with `BTreeMap` semantics: an existing key's value is
replaced in place, a new key is appended.  Because the `LLVM_13_JSON_entries`
keys are listed in sorted order, the resulting key order also coincides with
the B-tree's sorted iteration order. -/
def mapInsert : List (String × OptionDocument) → String × OptionDocument →
    List (String × OptionDocument)
  | [], kv => [kv]
  | (k, v) :: rest, kv =>
    if kv.1 == k then (k, kv.2) :: rest else (k, v) :: mapInsert rest kv

/-- The `LLVM_13_JSON` static of `lib.rs`: the map built from the entry
list, collapsing the duplicate key. -/
def LLVM_13_JSON : List (String × OptionDocument) :=
  LLVM_13_JSON_entries.foldl mapInsert []

/-- The function `llvm_13_options` of `lib.rs` (lines 107-118): look the
command up in `LLVM_13_JSON`; on a hit, parse the embedded document with
`CommandOptions::from_json` and return the result, else return none.  The
Rust code unwraps the parse with `expect`; that branch is unreachable for
the embedded documents (they all parse, see the registry theorems), and is
modelled by an empty schema. -/
def llvm_13_options (command : String) : Option CommandOptions :=
  match LLVM_13_JSON.find? (fun kv => command == kv.1) with
  | some kv =>
    match CommandOptions.from_json kv.2 with
    | .ok s => some s
    | .error _ => some ⟨[]⟩
  | none => none

/-- The function `clang_13_options` of `lib.rs` (lines 121-123). -/
def clang_13_options : CommandOptions :=
  (llvm_13_options "clang").getD ⟨[]⟩

/-- Instrumented counterpart of `llvm_13_options`, mirroring the control
flow of `lib.rs` lines 107-118 exactly, threading a counter that is bumped
once per `CommandOptions::from_json` invocation: the body unconditionally
calls `from_json` whenever the command is found in the byte map, so the
counter records how many times a Schema is constructed across calls. -/
def llvm_13_options_instr (command : String) (n : Nat) : Option CommandOptions × Nat :=
  match LLVM_13_JSON.find? (fun kv => command == kv.1) with
  | some kv =>
    match CommandOptions.from_json kv.2 with
    | .ok s => (some s, n + 1)
    | .error _ => (some ⟨[]⟩, n + 1)
  | none => (none, n)

/-- The twenty distinct command identifiers of the LLVM 13 registry in
`lib.rs` (lines 55-79). -/
def LLVM13Commands : List String :=
  ["clang", "dsymutil", "lld-coff", "lld-darwin-ld", "lld-elf", "lld-macho", "lld-mingw",
   "lld-wasm", "llvm-cvtres", "llvm-cxxfilt", "llvm-dlltool", "llvm-lib", "llvm-ml",
   "llvm-mt", "llvm-nm", "llvm-rc", "llvm-readobj", "llvm-size", "llvm-strings",
   "llvm-symbolizer"]

/-- Combined load check for one registry entry, mirroring the crate test
`parse_all` of `lib.rs`: the embedded document loads without error via
`CommandOptions::from_json`, `llvm_13_options` surfaces exactly that parsed
schema, and the derived indices `options_by_group` and `options_by_flag`
are produced without error: every group key comes from a declared group and
the flag index is the full prefixes-times-spelling cross-product. -/
def loadChecks (cmd : String) (d : OptionDocument) : Bool :=
  match CommandOptions.from_json d with
  | .error _ => false
  | .ok s =>
    (llvm_13_options cmd == some s) &&
    (s.options_by_group.map Prod.fst == firstDedup (s.options.filterMap OptionRecord.group)) &&
    (s.options_by_flag.length == (s.options.map (fun o => o.prefixes.length)).sum)

/-- When the Joined-family search returns nothing, no option of the list is
a Joined-family candidate. -/
theorem bestJoined_eq_none (pfx rem : String) :
    ∀ (l : List OptionRecord), bestJoined pfx rem l = none →
      ∀ x ∈ l, joinedCand pfx rem x = false := by
  intro l
  induction l with
  | nil => intro _ x hx; simp at hx
  | cons a rest ih =>
    intro h x hx
    rw [bestJoined] at h
    cases hr : bestJoined pfx rem rest with
    | none =>
      rw [hr] at h
      rcases List.mem_cons.mp hx with hxa | hxr
      · subst hxa
        by_cases hc : joinedCand pfx rem x = true
        · rw [if_pos hc] at h; exact absurd h (by simp)
        · simpa using hc
      · exact ih hr x hxr
    | some b =>
      rw [hr] at h
      by_cases hc : joinedCand pfx rem a = true <;> simp [hc] at h
      split at h <;> exact absurd h (by simp)

/-- Characterization of the Joined-family search: the returned option is a
candidate, every candidate's spelling is no longer, and every candidate
declared strictly earlier is strictly shorter (so the earliest of the
longest candidates wins). -/
theorem bestJoined_spec (pfx rem : String) :
    ∀ (opts : List OptionRecord) (o : OptionRecord), bestJoined pfx rem opts = some o →
      ∃ l1 l2, opts = l1 ++ o :: l2 ∧ joinedCand pfx rem o = true ∧
        (∀ x ∈ opts, joinedCand pfx rem x = true → strLen x.spelling ≤ strLen o.spelling) ∧
        (∀ x ∈ l1, joinedCand pfx rem x = true → strLen x.spelling < strLen o.spelling) := by
  intro opts
  induction opts with
  | nil => intro o h; simp [bestJoined] at h
  | cons a rest ih =>
    intro o h
    cases hr : bestJoined pfx rem rest with
    | none =>
      simp only [bestJoined, hr] at h
      by_cases hc : joinedCand pfx rem a = true
      · rw [if_pos hc] at h
        have hao : a = o := by simpa using h
        subst hao
        refine ⟨[], rest, rfl, hc, ?_, by simp⟩
        intro x hx hcx
        rcases List.mem_cons.mp hx with hxa | hxr
        · subst hxa; exact Nat.le_refl _
        · exact absurd hcx (by simp [bestJoined_eq_none pfx rem rest hr x hxr])
      · rw [if_neg hc] at h; exact absurd h (by simp)
    | some b =>
      simp only [bestJoined, hr] at h
      obtain ⟨r1, r2, hrest, hcb, hall, hpre⟩ := ih b hr
      by_cases hc : joinedCand pfx rem a = true
      · rw [if_pos hc] at h
        by_cases hl : strLen b.spelling ≤ strLen a.spelling
        · rw [if_pos hl] at h
          have hao : a = o := by simpa using h
          subst hao
          refine ⟨[], rest, rfl, hc, ?_, by simp⟩
          intro x hx hcx
          rcases List.mem_cons.mp hx with hxa | hxr
          · subst hxa; exact Nat.le_refl _
          · exact Nat.le_trans (hall x hxr hcx) hl
        · rw [if_neg hl] at h
          have hbo : b = o := by simpa using h
          subst hbo
          refine ⟨a :: r1, r2, by rw [hrest]; rfl, hcb, ?_, ?_⟩
          · intro x hx hcx
            rcases List.mem_cons.mp hx with hxa | hxr
            · subst hxa; omega
            · exact hall x hxr hcx
          · intro x hx hcx
            rcases List.mem_cons.mp hx with hxa | hxr
            · subst hxa; omega
            · exact hpre x hxr hcx
      · rw [if_neg hc] at h
        have hbo : b = o := by simpa using h
        subst hbo
        refine ⟨a :: r1, r2, by rw [hrest]; rfl, hcb, ?_, ?_⟩
        · intro x hx hcx
          rcases List.mem_cons.mp hx with hxa | hxr
          · subst hxa; exact absurd hcx (by simp [hc])
          · exact hall x hxr hcx
        · intro x hx hcx
          rcases List.mem_cons.mp hx with hxa | hxr
          · subst hxa; exact absurd hcx (by simp [hc])
          · exact hpre x hxr hcx

/-- A mapE over a list on which the function is the identity succeeds and
returns the list unchanged. -/
theorem mapE_ok_of_forall_ok {α : Type} {f : α → Except PError α} :
    ∀ (l : List α), (∀ x ∈ l, f x = .ok x) → mapE f l = .ok l := by
  intro l
  induction l with
  | nil => intro _; rfl
  | cons x xs ih =>
    intro h
    have hx : f x = .ok x := h x (by simp)
    have hxs : mapE f xs = .ok xs := ih (fun y hy => h y (by simp [hy]))
    simp only [mapE, hx, hxs]

/-- A successful mapE preserves length and maps each input element, in
order, to the output element at the same position. -/
theorem mapE_ok_spec {α β : Type} {f : α → Except PError β} :
    ∀ (l : List α) (l2 : List β), mapE f l = .ok l2 →
      l2.length = l.length ∧
      ∀ (i : Nat) (h1 : i < l.length) (h2 : i < l2.length),
        f (l.get ⟨i, h1⟩) = .ok (l2.get ⟨i, h2⟩) := by
  intro l
  induction l with
  | nil =>
    intro l2 h
    simp only [mapE] at h
    have : l2 = [] := by cases l2 <;> simp_all
    subst this
    exact ⟨rfl, fun i h1 _ => absurd h1 (by simp)⟩
  | cons x xs ih =>
    intro l2 h
    simp only [mapE] at h
    cases hfx : f x with
    | error e => rw [hfx] at h; exact absurd h (by simp)
    | ok y =>
      rw [hfx] at h
      cases hm : mapE f xs with
      | error e => rw [hm] at h; exact absurd h (by simp)
      | ok ys =>
        rw [hm] at h
        have hl2 : l2 = y :: ys := by simpa using h.symm
        subst hl2
        obtain ⟨hlen, helt⟩ := ih ys hm
        refine ⟨by simp [hlen], ?_⟩
        intro i h1 h2
        cases i with
        | zero => simpa using hfx
        | succ j => simpa using helt j (by simpa using h1) (by simpa using h2)

/-- Loading document records preserves the declared names in order. -/
theorem mapE_parseDocOption_names :
    ∀ (l : List DocOption) (os : List OptionRecord),
      mapE parseDocOption l = .ok os →
      os.map OptionRecord.name = l.map DocOption.name := by
  intro l
  induction l with
  | nil =>
    intro os h
    simp only [mapE] at h
    have : os = [] := by cases os <;> simp_all
    subst this
    rfl
  | cons x xs ih =>
    intro os h
    simp only [mapE] at h
    cases hk : parseDocOption x with
    | error e => rw [hk] at h; exact absurd h (by simp)
    | ok y =>
      rw [hk] at h
      cases hm : mapE parseDocOption xs with
      | error e => rw [hm] at h; exact absurd h (by simp)
      | ok ys =>
        rw [hm] at h
        have hos : os = y :: ys := by simpa using h.symm
        subst hos
        have hy : y.name = x.name := by
          simp only [parseDocOption] at hk
          cases hko : kindOf x with
          | error e => rw [hko] at hk; exact absurd hk (by simp)
          | ok k =>
            rw [hko] at hk
            have : (⟨x.name, k, x.prefixes, x.spelling, x.group, x.alias_target,
                x.alias_fixed_values⟩ : OptionRecord) = y := by simpa using hk
            rw [← this]
        simp [hy, ih ys hm]

/-- A name that does not refer to an Alias record resolves to a
pass-through. -/
theorem resolveArgName_not_alias (opts : List OptionRecord) (n : String)
    (h : isAliasName opts n = false) : resolveArgName opts n = .ok none := by
  simp only [isAliasName] at h
  simp only [resolveArgName]
  cases hf : findOption opts n with
  | none => rfl
  | some o =>
    rw [hf] at h
    simp only [Option.isSome] at h
    cases ht : o.alias_target with
    | none => simp [ht]
    | some tgt => rw [ht] at h; simp at h

/-- A parsed argument whose name does not refer to an Alias record passes
through the resolver unchanged. -/
theorem resolveArg_not_alias (opts : List OptionRecord) (a : ParsedArgument)
    (h : isAliasRef opts a = false) : resolveArg opts a = .ok a := by
  cases a with
  | positional t => rfl
  | flag n =>
    have hn : isAliasName opts n = false := by
      simpa [isAliasRef, ParsedArgument.name] using h
    simp [resolveArg, resolveArgName_not_alias opts n hn, Except.map]
  | singleValue n v =>
    have hn : isAliasName opts n = false := by
      simpa [isAliasRef, ParsedArgument.name] using h
    simp [resolveArg, resolveArgName_not_alias opts n hn, Except.map]
  | multiValue n vs =>
    have hn : isAliasName opts n = false := by
      simpa [isAliasRef, ParsedArgument.name] using h
    simp [resolveArg, resolveArgName_not_alias opts n hn, Except.map]

/-- A find? over an association list succeeds exactly when the key occurs
among the mapped-out keys. -/
theorem find_isSome_eq_contains (cmd : String) :
    ∀ (l : List (String × OptionDocument)),
      (l.find? (fun kv => cmd == kv.1)).isSome = (l.map Prod.fst).contains cmd := by
  intro l
  induction l with
  | nil => rfl
  | cons kv rest ih =>
    cases hc : (cmd == kv.1) with
    | true => simp [List.find?, hc, List.contains, List.elem]
    | false => simpa [List.find?, hc, List.contains, List.elem] using ih

/-- The registry lookup is populated exactly on the keys of the byte map. -/
theorem llvm_13_options_isSome (cmd : String) :
    (llvm_13_options cmd).isSome = (LLVM_13_JSON.map Prod.fst).contains cmd := by
  rw [← find_isSome_eq_contains]
  simp only [llvm_13_options]
  cases h : LLVM_13_JSON.find? (fun kv => cmd == kv.1) with
  | none => simp
  | some kv => cases hj : CommandOptions.from_json kv.2 <;> simp [hj]

/-- C1: Matching precedence of the Argument Matcher after prefix stripping:
an exact Flag spelling match wins outright; otherwise, among
Joined/JoinedOrSeparate/CommaJoined options whose spelling is a literal
prefix of the remainder, the longest matching spelling is selected, ties
broken by declaration order (earliest wins); Separate/MultiArg options
match only on exact spelling equality.  On the embedded clang-13 schema,
parsing `-Wno-unused-result` selects the Joined option `W_Joined` with
values `["no-unused-result"]`. -/
theorem c1_matcher_precedence :
    (∀ (opts : List OptionRecord) (pfx rem : String) (o : OptionRecord),
        findFlagMatch opts pfx rem = some o →
        matchOption opts pfx rem = some o ∧ o.kind = OptionKind.flag ∧ o.spelling = rem) ∧
    (∀ (opts : List OptionRecord) (pfx rem : String) (o : OptionRecord),
        findFlagMatch opts pfx rem = none →
        bestJoined pfx rem opts = some o →
        matchOption opts pfx rem = some o ∧
        ∃ l1 l2, opts = l1 ++ o :: l2 ∧ joinedCand pfx rem o = true ∧
          (∀ x ∈ opts, joinedCand pfx rem x = true → strLen x.spelling ≤ strLen o.spelling) ∧
          (∀ x ∈ l1, joinedCand pfx rem x = true → strLen x.spelling < strLen o.spelling)) ∧
    (∀ (opts : List OptionRecord) (pfx rem : String) (o : OptionRecord),
        matchOption opts pfx rem = some o → isSepKind o.kind = true → o.spelling = rem) ∧
    clang_13_options.parse_arguments ["-Wno-unused-result"] =
      Except.ok ⟨[ParsedArgument.singleValue "W_Joined" "no-unused-result"]⟩ ∧
    (ParsedArgument.singleValue "W_Joined" "no-unused-result").values =
      ["no-unused-result"] := by
  refine ⟨?_, ?_, ?_, rfl, rfl⟩
  · intro opts pfx rem o h
    have hp := List.find?_some h
    have hflat : o.kind = OptionKind.flag ∧ o.spelling = rem := by
      simp only [flagCand, Bool.and_eq_true, beq_iff_eq] at hp
      exact ⟨hp.1.1, hp.2⟩
    exact ⟨by simp [matchOption, findFlagMatch] at h ⊢; simp [h], hflat.1, hflat.2⟩
  · intro opts pfx rem o hf hj
    refine ⟨by simp [matchOption, hf, hj], ?_⟩
    exact bestJoined_spec pfx rem opts o hj
  · intro opts pfx rem o h hsep
    simp only [matchOption] at h
    cases hf : findFlagMatch opts pfx rem with
    | some a =>
      rw [hf] at h
      have hao : a = o := by simpa using h
      subst hao
      have hp := List.find?_some hf
      simp only [flagCand, Bool.and_eq_true, beq_iff_eq] at hp
      rw [hp.1.1] at hsep
      exact absurd hsep (by simp [isSepKind])
    | none =>
      rw [hf] at h
      cases hb : bestJoined pfx rem opts with
      | some b =>
        rw [hb] at h
        have hbo : b = o := by simpa using h
        subst hbo
        obtain ⟨_, _, _, hcand, _, _⟩ := bestJoined_spec pfx rem opts b hb
        simp only [joinedCand, Bool.and_eq_true] at hcand
        cases hk : b.kind <;> rw [hk] at hcand hsep <;>
          simp_all [isJoinedKind, isSepKind]
      | none =>
        rw [hb] at h
        have hp := List.find?_some h
        simp only [sepCand, Bool.and_eq_true, beq_iff_eq] at hp
        exact hp.2

/-- Witness for C1: on the embedded clang-13 schema, `W_Joined` is the
Joined-family selection for the remainder `Wno-unused-result` and the
matcher returns it, with the exact-Flag rule finding nothing first. -/
theorem c1_matcher_precedence_witness :
    matchOption clang_13_options.options "-" "Wno-unused-result" =
      some ⟨"W_Joined", OptionKind.joined, ["-"], "W", none, none, none⟩ :=
  (c1_matcher_precedence.2.1 clang_13_options.options "-" "Wno-unused-result"
    ⟨"W_Joined", OptionKind.joined, ["-"], "W", none, none, none⟩
    (by decide) (by decide)).1

/-- C2: Joined/separate equivalence for a JoinedOrSeparate option on the
embedded clang-13 schema: `-DDEBUG` and `-D DEBUG` both succeed and both
yield exactly one parsed argument, a SingleValue named `D` whose values
equal `["DEBUG"]`. -/
theorem c2_joined_separate_equivalence :
    clang_13_options.parse_arguments ["-DDEBUG"] =
      Except.ok ⟨[ParsedArgument.singleValue "D" "DEBUG"]⟩ ∧
    clang_13_options.parse_arguments ["-D", "DEBUG"] =
      Except.ok ⟨[ParsedArgument.singleValue "D" "DEBUG"]⟩ ∧
    (ParsedArgument.singleValue "D" "DEBUG").name = some "D" ∧
    (ParsedArgument.singleValue "D" "DEBUG").values = ["DEBUG"] :=
  ⟨rfl, rfl, rfl, rfl⟩

/-- C3: Alias rewriting preserves the carried value on the embedded
clang-13 schema: `-target value` parses to one SingleValue named
`target_legacy_spelling` carrying `["value"]`, and resolving aliases on
that ParseResult yields one SingleValue named `target` with the same
value. -/
theorem c3_alias_value_preserved :
    clang_13_options.parse_arguments ["-target", "value"] =
      Except.ok ⟨[ParsedArgument.singleValue "target_legacy_spelling" "value"]⟩ ∧
    ParsedArguments.resolve_aliases
        ⟨[ParsedArgument.singleValue "target_legacy_spelling" "value"]⟩ clang_13_options =
      Except.ok ⟨[ParsedArgument.singleValue "target" "value"]⟩ ∧
    (ParsedArgument.singleValue "target_legacy_spelling" "value").values = ["value"] ∧
    (ParsedArgument.singleValue "target" "value").values = ["value"] :=
  ⟨rfl, rfl, rfl, rfl⟩

/-- C4: a value-bearing Separate (or JoinedOrSeparate in its separate
flavor) option matched at the last token fails the parse with
`ParseNoArgumentValue` carrying the matched option's name; on the embedded
clang-13 schema, parsing `-target` alone fails with
`ParseNoArgumentValue("target_legacy_spelling")`. -/
theorem c4_missing_value :
    (∀ (c : CommandOptions) (t pfx rem : String) (o : OptionRecord),
        stripToken c.options t = some (pfx, rem) →
        matchOption c.options pfx rem = some o →
        (o.kind = OptionKind.separate ∨
          (o.kind = OptionKind.joinedOrSeparate ∧ strLen rem ≤ strLen o.spelling)) →
        c.parse_arguments [t] = Except.error (PError.parseNoArgumentValue o.name)) ∧
    clang_13_options.parse_arguments ["-target"] =
      Except.error (PError.parseNoArgumentValue "target_legacy_spelling") := by
  refine ⟨?_, rfl⟩
  intro c t pfx rem o hstrip hmatch hkind
  have h1 : parseArgsGo c.options (0 + 1) [t] =
      Except.error (PError.parseNoArgumentValue o.name) := by
    simp only [parseArgsGo, hstrip, hmatch]
    rcases hkind with hk | ⟨hk, hle⟩
    · rw [hk]
    · rw [hk]
      have : ¬ strLen o.spelling < strLen rem := by omega
      rw [if_neg this]
  simp only [CommandOptions.parse_arguments]
  rw [show ([t] : List String).length = 0 + 1 from rfl, h1]
  rfl

/-- Witness for C4: the clang-13 schema strips `-target` to remainder
`target`, matches the Separate alias record `target_legacy_spelling`, and
the parse of the lone token fails with `ParseNoArgumentValue` carrying that
name. -/
theorem c4_missing_value_witness :
    stripToken clang_13_options.options "-target" = some ("-", "target") ∧
    clang_13_options.parse_arguments ["-target"] =
      Except.error (PError.parseNoArgumentValue "target_legacy_spelling") :=
  ⟨by decide,
    c4_missing_value.1 clang_13_options "-target" "-" "target"
      ⟨"target_legacy_spelling", OptionKind.separate, ["-"], "target", none, some "target", none⟩
      (by decide) (by decide) (Or.inl rfl)⟩

/-- Counterexample for C5 as stated: instrumenting `llvm_13_options`
(`lib.rs` lines 107-118) with a counter of `CommandOptions::from_json`
invocations, two successive lookups of `"clang"` construct the Schema
twice — the parsed Schema is not memoized, so it is not constructed at
most once per process. -/
theorem c5_schema_memoization_counterexample :
    ¬ (llvm_13_options_instr "clang" ((llvm_13_options_instr "clang" 0).2)).2 ≤ 1 := by
  decide

/-- C5 as amended: the registry memoizes only the mapping from command
identifier to embedded metadata bytes (the `LLVM_13_JSON` static); the
parsed Schema is constructed anew by every lookup of a recognized command
identifier (exactly one `from_json` parse per such call, none for an
unrecognized identifier), and the instrumented lookup returns the same
result as `llvm_13_options`. -/
theorem c5_registry_reparses :
    (∀ (cmd : String) (n : Nat),
        ((LLVM_13_JSON.find? (fun kv => cmd == kv.1)).isSome = true →
          (llvm_13_options_instr cmd n).2 = n + 1) ∧
        ((LLVM_13_JSON.find? (fun kv => cmd == kv.1)).isSome = false →
          (llvm_13_options_instr cmd n).2 = n)) ∧
    (∀ (cmd : String) (n : Nat), (llvm_13_options_instr cmd n).1 = llvm_13_options cmd) := by
  constructor
  · intro cmd n
    constructor
    · intro h
      simp only [llvm_13_options_instr]
      cases hf : LLVM_13_JSON.find? (fun kv => cmd == kv.1) with
      | none => rw [hf] at h; simp at h
      | some kv => cases hj : CommandOptions.from_json kv.2 <;> simp [hj]
    · intro h
      simp only [llvm_13_options_instr]
      cases hf : LLVM_13_JSON.find? (fun kv => cmd == kv.1) with
      | none => rfl
      | some kv => rw [hf] at h; simp at h
  · intro cmd n
    simp only [llvm_13_options_instr, llvm_13_options]
    cases hf : LLVM_13_JSON.find? (fun kv => cmd == kv.1) with
    | none => rfl
    | some kv => cases hj : CommandOptions.from_json kv.2 <;> simp [hj]

/-- Witness for C5 (amended): looking up `"clang"` performs exactly one
Schema construction. -/
theorem c5_registry_reparses_witness :
    (LLVM_13_JSON.find? (fun kv => "clang" == kv.1)).isSome = true ∧
    (llvm_13_options_instr "clang" 0).2 = 0 + 1 :=
  ⟨by decide, (c5_registry_reparses.1 "clang" 0).1 (by decide)⟩

/-- C6: the registry lookup is total and error-free: for every command
identifier it returns some Schema or none, and for every identifier
outside the embedded key set it returns none (the signature has no error
channel at all). -/
theorem c6_lookup_total :
    (∀ cmd : String, llvm_13_options cmd = none ∨ ∃ s, llvm_13_options cmd = some s) ∧
    (∀ cmd : String, cmd ∉ LLVM_13_JSON.map Prod.fst → llvm_13_options cmd = none) := by
  constructor
  · intro cmd
    cases h : llvm_13_options cmd with
    | none => exact Or.inl rfl
    | some s => exact Or.inr ⟨s, rfl⟩
  · intro cmd h
    simp only [llvm_13_options]
    have hf : LLVM_13_JSON.find? (fun kv => cmd == kv.1) = none := by
      rw [List.find?_eq_none]
      intro kv hkv hbeq
      exact h (List.mem_map.mpr ⟨kv, hkv, (beq_iff_eq.mp hbeq).symm⟩)
    rw [hf]

/-- Witness for C6: the unrecognized identifier `gcc` is outside the key
set and looks up to none. -/
theorem c6_lookup_total_witness :
    "gcc" ∉ LLVM_13_JSON.map Prod.fst ∧ llvm_13_options "gcc" = none :=
  ⟨by decide, c6_lookup_total.2 "gcc" (by decide)⟩

/-- C7: the loader preserves declaration order — a loaded Schema lists its
option names in the same order as the source document — and on the
embedded clang-13 reference schema the first option is `C`, the second is
`CC` and the last is `y`. -/
theorem c7_declaration_order :
    (∀ (d : OptionDocument) (s : CommandOptions), CommandOptions.from_json d = Except.ok s →
        s.options.map OptionRecord.name = d.options.map DocOption.name) ∧
    (clang_13_options.options.map OptionRecord.name).head? = some "C" ∧
    (clang_13_options.options.map OptionRecord.name)[1]? = some "CC" ∧
    (clang_13_options.options.map OptionRecord.name).getLast? = some "y" := by
  refine ⟨?_, rfl, rfl, rfl⟩
  intro d s h
  simp only [CommandOptions.from_json] at h
  cases hm : mapE parseDocOption d.options with
  | error e => rw [hm] at h; exact absurd h (by simp)
  | ok os =>
    rw [hm] at h
    have hs : s = ⟨os⟩ := by simpa using h.symm
    subst hs
    exact mapE_parseDocOption_names d.options os hm

/-- Witness for C7: the modelled embedded clang document loads to exactly
the registry's clang Schema, whose names follow the document order. -/
theorem c7_declaration_order_witness :
    CommandOptions.from_json clangDoc = Except.ok clang_13_options ∧
    clang_13_options.options.map OptionRecord.name = clangDoc.options.map DocOption.name :=
  ⟨rfl, c7_declaration_order.1 clangDoc clang_13_options rfl⟩

/-- C8: alias resolution is idempotent on alias-free results and
order-preserving: a ParseResult none of whose arguments names an Alias
record is returned unchanged, and any successful resolution has the same
length with each output element the resolution of the input element at the
same position (the transformation is a pure function of the input, which
is never mutated). -/
theorem c8_resolver_pure :
    (∀ (c : CommandOptions) (r : ParsedArguments),
        (∀ a ∈ r.parsed, isAliasRef c.options a = false) →
        r.resolve_aliases c = Except.ok r) ∧
    (∀ (c : CommandOptions) (r r2 : ParsedArguments), r.resolve_aliases c = Except.ok r2 →
        r2.parsed.length = r.parsed.length ∧
        ∀ (i : Nat) (h1 : i < r.parsed.length) (h2 : i < r2.parsed.length),
          resolveArg c.options (r.parsed.get ⟨i, h1⟩) =
            Except.ok (r2.parsed.get ⟨i, h2⟩)) := by
  constructor
  · intro c r h
    obtain ⟨as⟩ := r
    have hm : mapE (resolveArg c.options) as = Except.ok as :=
      mapE_ok_of_forall_ok as (fun a ha => resolveArg_not_alias c.options a (h a ha))
    simp only [ParsedArguments.resolve_aliases, hm]
  · intro c r r2 h
    obtain ⟨as⟩ := r
    obtain ⟨as2⟩ := r2
    simp only [ParsedArguments.resolve_aliases] at h
    cases hm : mapE (resolveArg c.options) as with
    | error e => rw [hm] at h; exact absurd h (by simp)
    | ok bs =>
      rw [hm] at h
      have hbs : bs = as2 := by simpa using h
      subst hbs
      exact mapE_ok_spec as bs hm

/-- Witness for C8: a one-element alias-free result on the clang-13 schema
resolves to itself. -/
theorem c8_resolver_pure_witness :
    ParsedArguments.resolve_aliases ⟨[ParsedArgument.flag "pthread"]⟩ clang_13_options =
      Except.ok ⟨[ParsedArgument.flag "pthread"]⟩ :=
  c8_resolver_pure.1 clang_13_options ⟨[ParsedArgument.flag "pthread"]⟩ (by decide)

/-- C9: for every command the embedded registry claims to support, loading
its metadata with `CommandOptions::from_json` succeeds, `llvm_13_options`
returns that parsed Schema, and the derived `options_by_group` and
`options_by_flag` indices are produced without error (each group key comes
from a declared group; the flag index is the full prefixes-times-spelling
cross-product). -/
theorem c9_loader_succeeds :
    ∀ kv ∈ LLVM_13_JSON, loadChecks kv.1 kv.2 = true := by
  decide

/-- Witness for C9: the clang entry of the registry passes the load
check. -/
theorem c9_loader_succeeds_witness :
    ("clang", clangDoc) ∈ LLVM_13_JSON ∧ loadChecks "clang" clangDoc = true :=
  ⟨by decide, c9_loader_succeeds ("clang", clangDoc) (by decide)⟩

/-- C10: `llvm_13_options` returns some Schema exactly for the twenty
distinct embedded command identifiers and none for every other string; the
initializer of `lib.rs` lists `llvm-cxxfilt` twice (21 entries) but the
map collapses the duplicate to a single entry (20 keys). -/
theorem c10_registry_domain :
    (∀ cmd : String, (llvm_13_options cmd).isSome = LLVM13Commands.contains cmd) ∧
    LLVM_13_JSON.map Prod.fst = LLVM13Commands ∧
    LLVM_13_JSON_entries.length = 21 ∧
    LLVM_13_JSON.length = 20 := by
  refine ⟨?_, by decide, by decide, by decide⟩
  intro cmd
  rw [llvm_13_options_isSome]
  rfl
